import Mathlib

/-!
# Verification of the smart-digest concurrent processing pipeline

Shallow embedding of the `processor`, `llm` and `config` components of the
smart-digest repository (Go), together with proofs of the specification
claims about them.

* `internal/processor/processor.go` — the pipeline coordinator
  (`Processor.Process`), the rate-limiter goroutine, the worker pool and the
  two-stage per-job execution (`Processor.processJob`).  The concurrent parts
  are embedded as a small-step transition system (`Step`) over an explicit
  state (`PState`); channels become FIFO buffers, goroutines become
  components of the state, and the scheduler / cancellation signal become
  nondeterministic choices of the step relation.
* `internal/llm/openai.go` — `parseAnalysisResult` (JSON decoding is an
  external collaborator; it is a parameter of the embedding).
* `internal/config/config.go` — `Config.Validate`.

Go machine integers are modelled as `Int`/`Nat`; `time.Duration` is an
integer number of nanoseconds; the `float64` rate is modelled as an exact
rational (`ℚ`).
-/

namespace SmartDigest

/-! ## Data model (processor.go, fetcher.go, llm/interface.go) -/

/-- `processor.Job`: one requested unit of work. -/
structure Job where
  url : String
  project : String
  version : String
deriving DecidableEq, Repr

/-- `fetcher.Article`: extracted content for a successfully fetched job. -/
structure Article where
  url : String
  title : String
  content : String
  excerpt : String
deriving DecidableEq, Repr

/-- `llm.AnalysisResult`: structured scoring output.  `Score` is a Go `int`,
modelled as `Int`. -/
structure AnalysisResult where
  score : Int
  summary : List String
  category : String
deriving DecidableEq, Repr

/-- The errors a `Result` can carry.  `fetchFailed` models
`fmt.Errorf("fetch failed: %w", err)`, `analysisFailed` models
`fmt.Errorf("analysis failed: %w", err)` (each wraps the underlying cause),
and `ctxCancelled` models `ctx.Err()`. -/
inductive PErr where
  | fetchFailed (cause : String)
  | analysisFailed (cause : String)
  | ctxCancelled
deriving DecidableEq, Repr

/-- `processor.Result`: the terminal outcome for one job.  The Go `*Article`,
`*AnalysisResult` and `error` pointers become `Option`s (`none` = `nil`). -/
structure Result where
  job : Job
  article : Option Article
  analysis : Option AnalysisResult
  error : Option PErr
deriving DecidableEq, Repr

/-! ## Processor construction (processor.go, `New`)

`New` computes `rateLimitTick`:
```go
if rateLimit >= 1 {
    tickDuration = time.Second / time.Duration(rateLimit)
} else {
    tickDuration = time.Duration(float64(time.Second) / rateLimit)
}
```
`time.Duration` is an `int64` count of nanoseconds; converting a `float64`
to `time.Duration` truncates toward zero, and `Duration / Duration` is
integer division.  For a positive rate both truncations are floors. -/

/-- The tick interval computed by `processor.New`, in nanoseconds. -/
def tickDurationNs (rateLimit : ℚ) : ℤ :=
  if 1 ≤ rateLimit then
    ⌊(10 ^ 9 : ℚ) / (⌊rateLimit⌋ : ℚ)⌋
  else
    ⌊(10 ^ 9 : ℚ) / rateLimit⌋

/-- `processor.Processor`.  The fetcher (`fetcher.Fetch`, keyed by the job's
URL) and the LLM provider (`llm.Provider.Analyze`, keyed by the article body
and the interest list) are external collaborators, embedded as function
parameters returning `Except` (Go `(T, error)`). -/
structure Processor where
  fetchF : String → Except String Article
  analyzeF : String → List String → Except String AnalysisResult
  interests : List String
  maxWorkers : Int
  rateLimitTickNs : ℤ

/-- `processor.New`: builds a `Processor` from the configuration.  It is a
total function — it has no error return and rejects nothing. -/
def New (fetchF : String → Except String Article)
    (analyzeF : String → List String → Except String AnalysisResult)
    (interests : List String) (maxWorkers : Int) (rateLimit : ℚ) : Processor :=
  { fetchF := fetchF
    analyzeF := analyzeF
    interests := interests
    maxWorkers := maxWorkers
    rateLimitTickNs := tickDurationNs rateLimit }

/-! ## Per-job execution (processor.go, `processJob`) -/

/-- The two-stage pipeline of `Processor.processJob`, parameterised by the
outcome of the fetch stage and the (article-dependent) outcome of the
analyze stage. -/
def processJobO (fetchRes : Except String Article)
    (analyzeRes : Article → Except String AnalysisResult) (job : Job) : Result :=
  match fetchRes with
  | .error e => { job := job, article := none, analysis := none,
                  error := some (.fetchFailed e) }
  | .ok article =>
    match analyzeRes article with
    | .error e => { job := job, article := some article, analysis := none,
                    error := some (.analysisFailed e) }
    | .ok analysis => { job := job, article := some article,
                        analysis := some analysis, error := none }

/-- `Processor.processJob`: fetch the URL, then analyze the article body. -/
def Processor.processJob (p : Processor) (job : Job) : Result :=
  processJobO (p.fetchF job.url) (fun a => p.analyzeF a.content p.interests) job

/-- The result a worker emits when it observes cancellation before starting
a job (`Result{Job: job, Error: ctx.Err()}`). -/
def cancelResult (job : Job) : Result :=
  { job := job, article := none, analysis := none, error := some .ctxCancelled }

/-! ## LLM response parsing (openai.go, `parseAnalysisResult`) -/

/-- Go `strings.TrimPrefix`: drop `pre` when it is a prefix of `s`. -/
def trimPrefixStr (s pre : String) : String :=
  if pre.isPrefixOf s then s.drop pre.length else s

/-- Go `strings.TrimSuffix`: drop `suf` when it is a suffix of `s`. -/
def trimSuffixStr (s suf : String) : String :=
  if s.endsWith suf then s.dropRight suf.length else s

/-- The markdown-fence cleanup performed at the start of
`parseAnalysisResult`. -/
def cleanLLMContent (content : String) : String :=
  let c := content.trim
  let c := trimPrefixStr c "```json"
  let c := trimPrefixStr c "```"
  let c := trimSuffixStr c "```"
  c.trim

/-- `parseAnalysisResult` from `openai.go` (also used by the Ollama
provider).  `json.Unmarshal` is an external collaborator, embedded as the
`unmarshal` parameter (`none` = decode error).  After decoding, the score is
clamped to `[0,100]`, an empty summary is rejected, and an omitted category
defaults to the sentinel `"未分類"`. -/
def parseAnalysisResult (unmarshal : String → Option AnalysisResult)
    (content : String) : Except String AnalysisResult :=
  let c := cleanLLMContent content
  match unmarshal c with
  | none => .error "failed to parse LLM response as JSON"
  | some r0 =>
    let r1 := if r0.score < 0 then { r0 with score := 0 } else r0
    let r2 := if r1.score > 100 then { r1 with score := 100 } else r1
    if r2.summary.isEmpty then .error "LLM returned empty summary"
    else if r2.category = "" then .ok { r2 with category := "未分類" }
    else .ok r2

/-! ## Configuration validation (config.go, `Config.Validate`) -/

/-- `config.Config`.  `LLMProvider` is a string type; `RateLimit` is a Go
`float64`, modelled as `ℚ`. -/
structure Config where
  llmProvider : String
  apiKey : String
  configModel : String
  interests : List String
  threshold : Int
  ollamaURL : String
  maxWorkers : Int
  rateLimit : ℚ
deriving DecidableEq, Repr

/-- `Config.Validate`.  Go mutates the receiver in the last two checks
(`MaxWorkers < 1` and `RateLimit <= 0` are silently replaced by defaults, not
rejected); the embedding returns the updated configuration in `.ok`. -/
def Config.validate (c : Config) : Except String Config :=
  if ¬ (c.llmProvider = "openai") ∧ ¬ (c.llmProvider = "ollama") then
    .error "invalid llm_provider"
  else if c.llmProvider = "openai" ∧ c.apiKey = "" then
    .error "api_key is required for OpenAI provider"
  else if c.configModel = "" then
    .error "model must be specified"
  else if c.interests = [] then
    .error "at least one interest must be specified"
  else if c.threshold < 0 ∨ c.threshold > 100 then
    .error "threshold must be between 0 and 100"
  else
    let c1 := if c.maxWorkers < 1 then { c with maxWorkers := 5 } else c
    let c2 := if c1.rateLimit ≤ 0 then { c1 with rateLimit := 10 } else c1
    .ok c2

/-! ## The result collector (processor.go, `Process` lines 121–132)

The collector drains the result stream, incrementing `completed`, appending
each result to the returned slice, and invoking the callback (when non-nil)
with `(completed, len(jobs), &result)`.  The embedding additionally records
the sequence of callback invocations, so that "the callback is never
invoked" is expressible. -/

/-- What `Process` produces: the returned results, plus the (ghost) list of
progress-callback invocations. -/
structure ProcessOutput where
  results : List Result
  progressCalls : List (Nat × Nat × Result)
deriving DecidableEq, Repr

/-- The collection loop of `Process`.  `hasCallback` is whether the caller
passed a non-nil callback. -/
def collectLoop (hasCallback : Bool) (total : Nat) :
    Nat → List Result → ProcessOutput
  | _, [] => { results := [], progressCalls := [] }
  | completed, r :: rest =>
    let out := collectLoop hasCallback total (completed + 1) rest
    { results := r :: out.results
      progressCalls :=
        (if hasCallback then [(completed + 1, total, r)] else []) ++
          out.progressCalls }

/-- The value `Process` returns, as a function of the stream of results the
workers emitted (`emitted`): an empty job list returns `nil` immediately
(before any channel or goroutine is created); otherwise the collector drains
the stream. -/
def processOutput (jobs : List Job) (hasCallback : Bool)
    (emitted : List Result) : ProcessOutput :=
  if jobs.isEmpty then { results := [], progressCalls := [] }
  else collectLoop hasCallback jobs.length 0 emitted

/-! ## The concurrent pipeline (processor.go, `Process` lines 63–151)

For a non-empty job list, `Process` wires up:

* `jobChan` — buffered channel of capacity `len(jobs)`; since at most
  `len(jobs)` values are ever sent, sends on it never block, so the buffer is
  a plain FIFO list and the send step is always enabled;
* the **rate-limiter goroutine** — `for job := range jobChan` pulls a job,
  then `select`s on `ctx.Done()` (return, closing `rateLimitedJobs`) versus a
  ticker tick (forward the job with `rateLimitedJobs <- job`, which blocks
  while the buffer holds `maxWorkers` items);
* the **sender goroutine** — sends each job in input order, `select`ing
  against `ctx.Done()` (close `jobChan` and return, abandoning the rest);
* `maxWorkers` **workers** — `for job := range rateLimitedJobs`, a
  non-blocking `select` on `ctx.Done()` (emit `Result{Job, Error: ctx.Err()}`
  and return) and otherwise `processJob`; `resultChan` has capacity
  `len(jobs)` and receives at most one result per job, so sends on it never
  block;
* the collector (embedded above as `collectLoop`), which drains `resultChan`
  until it is closed after all workers return.

Go `select` semantics embedded: when several cases are ready the choice is
nondeterministic (several step constructors are enabled); when a `select`
with a `default` case has a ready channel, the ready case is taken (the
worker's cancellation check is deterministic).  The external fetch/analyze
calls are nondeterministic: a worker emits `processJobO fetchRes analyzeRes
job` for arbitrary collaborator outcomes. -/

/-- The control state of the rate-limiter goroutine. -/
inductive LimiterState where
  /-- At the head of `for job := range jobChan`. -/
  | running
  /-- Holding `job`, blocked in the `select` on `ctx.Done()` / the ticker. -/
  | waiting (job : Job)
  /-- Received a tick, executing `rateLimitedJobs <- job`. -/
  | sending (job : Job)
  /-- Returned (and, via `defer`, closed `rateLimitedJobs`). -/
  | done
deriving DecidableEq, Repr

/-- The control state of one worker. -/
inductive WorkerState where
  /-- At the head of `for job := range jobs`. -/
  | idle
  /-- Received `job`, about to run the cancellation check. -/
  | pulled (job : Job)
  /-- Passed the check, inside `processJob`. -/
  | processing (job : Job)
  /-- Returned. -/
  | done
deriving DecidableEq, Repr

/-- The state of one `Process` call.  `admitted` is a ghost history: the
jobs forwarded into `rateLimitedJobs`, in order. -/
structure PState where
  cancelled : Bool
  sendQueue : List Job
  senderDone : Bool
  jobChan : List Job
  jobChanClosed : Bool
  limiter : LimiterState
  rateQ : List Job
  rateClosed : Bool
  workers : List WorkerState
  results : List Result
  admitted : List Job
deriving DecidableEq, Repr

/-- The state right after `Process` spawns its goroutines (`n` is
`maxWorkers`, the number of workers spawned by the loop at line 94). -/
def initState (jobs : List Job) (n : Nat) : PState :=
  { cancelled := false
    sendQueue := jobs
    senderDone := false
    jobChan := []
    jobChanClosed := false
    limiter := .running
    rateQ := []
    rateClosed := false
    workers := List.replicate n .idle
    results := []
    admitted := [] }

/-- One scheduler step of the pipeline.  Worker steps identify the stepping
worker by an explicit split `p ++ w :: q` of the worker list. -/
inductive Step (n : Nat) : PState → PState → Prop where
  /-- The caller's context is cancelled (at most once, at any time). -/
  | cancel (s : PState) :
      s.cancelled = false →
      Step n s { s with cancelled := true }
  /-- Sender: `jobChan <- job` (line 106; the buffer never fills). -/
  | senderSend (s : PState) (j : Job) (rest : List Job) :
      s.senderDone = false → s.sendQueue = j :: rest →
      Step n s { s with sendQueue := rest, jobChan := s.jobChan ++ [j] }
  /-- Sender: all jobs sent, `close(jobChan)` (line 112). -/
  | senderFinish (s : PState) :
      s.senderDone = false → s.sendQueue = [] →
      Step n s { s with senderDone := true, jobChanClosed := true }
  /-- Sender: `ctx.Done()` fires mid-intake; close `jobChan` and abandon the
  remaining jobs (lines 107–109). -/
  | senderAbort (s : PState) :
      s.senderDone = false → s.sendQueue ≠ [] → s.cancelled = true →
      Step n s { s with senderDone := true, jobChanClosed := true,
                        sendQueue := ([] : List Job) }
  /-- Limiter: receive the next job from `jobChan` (line 82). -/
  | limiterPull (s : PState) (j : Job) (rest : List Job) :
      s.limiter = .running → s.jobChan = j :: rest →
      Step n s { s with jobChan := rest, limiter := .waiting j }
  /-- Limiter: `jobChan` closed and drained; the range loop ends and the
  deferred `close(rateLimitedJobs)` runs (lines 81–82). -/
  | limiterExit (s : PState) :
      s.limiter = .running → s.jobChanClosed = true → s.jobChan = [] →
      Step n s { s with limiter := .done, rateClosed := true }
  /-- Limiter: `ctx.Done()` ready in the select; return, dropping the held
  job and closing `rateLimitedJobs` (lines 84–85). -/
  | limiterCancel (s : PState) (j : Job) :
      s.limiter = .waiting j → s.cancelled = true →
      Step n s { s with limiter := .done, rateClosed := true }
  /-- Limiter: a ticker tick is received (line 86). -/
  | limiterTick (s : PState) (j : Job) :
      s.limiter = .waiting j →
      Step n s { s with limiter := .sending j }
  /-- Limiter: `rateLimitedJobs <- job` completes (line 87; the buffer has
  capacity `maxWorkers`). -/
  | limiterPush (s : PState) (j : Job) :
      s.limiter = .sending j → s.rateQ.length < n →
      Step n s { s with rateQ := s.rateQ ++ [j], limiter := .running,
                        admitted := s.admitted ++ [j] }
  /-- A worker receives a job from `rateLimitedJobs` (line 137). -/
  | workerPull (s : PState) (p q : List WorkerState) (j : Job) (rest : List Job) :
      s.workers = p ++ .idle :: q → s.rateQ = j :: rest →
      Step n s { s with rateQ := rest, workers := p ++ .pulled j :: q }
  /-- A worker's range loop ends: `rateLimitedJobs` closed and drained. -/
  | workerExit (s : PState) (p q : List WorkerState) :
      s.workers = p ++ .idle :: q → s.rateClosed = true → s.rateQ = [] →
      Step n s { s with workers := p ++ .done :: q }
  /-- The cancellation check fires: `ctx.Done()` is ready, so the `select`
  takes it over `default`; the worker emits a cancellation result for the
  pulled job and returns (lines 138–144). -/
  | workerCancel (s : PState) (p q : List WorkerState) (j : Job) :
      s.workers = p ++ .pulled j :: q → s.cancelled = true →
      Step n s { s with workers := p ++ .done :: q,
                        results := s.results ++ [cancelResult j] }
  /-- The cancellation check passes: only `default` is ready (line 145). -/
  | workerCheck (s : PState) (p q : List WorkerState) (j : Job) :
      s.workers = p ++ .pulled j :: q → s.cancelled = false →
      Step n s { s with workers := p ++ .processing j :: q }
  /-- `processJob` returns (with some collaborator outcomes) and the worker
  emits its result (lines 148–149). -/
  | workerEmit (s : PState) (p q : List WorkerState) (j : Job)
      (fetchRes : Except String Article)
      (analyzeRes : Article → Except String AnalysisResult) :
      s.workers = p ++ .processing j :: q →
      Step n s { s with workers := p ++ .idle :: q,
                        results := s.results ++ [processJobO fetchRes analyzeRes j] }

/-- The states one `Process` call on `jobs` with `n` workers can reach. -/
def Reach (jobs : List Job) (n : Nat) : PState → Prop :=
  Relation.ReflTransGen (Step n) (initState jobs n)

/-- All workers have returned: `wg.Wait()` fires, `resultChan` is closed,
and `Process` returns the collected results. -/
def AllDone (s : PState) : Prop :=
  ∀ w ∈ s.workers, w = WorkerState.done

/-- The job the rate limiter currently holds, if any. -/
def limiterJobs : LimiterState → List Job
  | .waiting j => [j]
  | .sending j => [j]
  | _ => []

/-- The job a worker currently holds, if any. -/
def workerJob : WorkerState → List Job
  | .pulled j => [j]
  | .processing j => [j]
  | _ => []

/-- All jobs currently held by workers. -/
def workersJobs : List WorkerState → List Job
  | [] => []
  | w :: ws => workerJob w ++ workersJobs ws

/-- Every job in the system, with multiplicity: queued, held, or already
answered by a result.  Conserved by every step of a run in which the
cancellation signal never fires. -/
def jobsMultiset (s : PState) : Multiset Job :=
  (s.sendQueue : Multiset Job) + (s.jobChan : Multiset Job) +
    (limiterJobs s.limiter : Multiset Job) + (s.rateQ : Multiset Job) +
    (workersJobs s.workers : Multiset Job) +
    (s.results.map Result.job : Multiset Job)

/-- The jobs that can still be admitted into the worker pool, in admission
order: nothing once the limiter has returned; otherwise the held job, then
the `jobChan` backlog, then (unless the sender has returned) the unsent
jobs. -/
def pending (s : PState) : List Job :=
  if s.limiter = LimiterState.done then []
  else limiterJobs s.limiter ++ s.jobChan ++
    (if s.senderDone then [] else s.sendQueue)

/-- Structural facts holding in every reachable state of every run. -/
structure GInv (jobs : List Job) (n : Nat) (s : PState) : Prop where
  /-- `rateLimitedJobs` is closed exactly when the limiter has returned. -/
  rateC : s.rateClosed = true ↔ s.limiter = LimiterState.done
  /-- `jobChan` is closed exactly when the sender has returned. -/
  sendC : s.senderDone = s.jobChanClosed
  /-- The pool size is fixed. -/
  wlen : s.workers.length = n
  /-- Admission order: what has been admitted, followed by what can still be
  admitted, is a prefix of the input order. -/
  adm : (s.admitted ++ pending s) <+: jobs

/-- Facts holding in every reachable state of a run in which the
cancellation signal has not fired. -/
structure NCInv (jobs : List Job) (s : PState) : Prop where
  /-- No job is lost or duplicated. -/
  perm : jobsMultiset s = (jobs : Multiset Job)
  /-- The limiter returns only after `jobChan` is closed and drained. -/
  limDone : s.limiter = LimiterState.done → s.jobChanClosed = true ∧ s.jobChan = []
  /-- The sender closes `jobChan` only after sending everything. -/
  sendDoneQ : s.jobChanClosed = true → s.sendQueue = []
  /-- A worker returns only once `rateLimitedJobs` is closed and drained,
  and it stays drained. -/
  wDone : (∃ w ∈ s.workers, w = WorkerState.done) →
    s.rateClosed = true ∧ s.rateQ = []
  /-- Without cancellation nothing is abandoned: the admitted jobs followed
  by the still-admissible jobs are exactly the input. -/
  admEq : s.admitted ++ pending s = jobs

/-- The combined inductive invariant. -/
def Inv (jobs : List Job) (n : Nat) (s : PState) : Prop :=
  GInv jobs n s ∧ (s.cancelled = false → NCInv jobs s)

/-! ## Timed admission (processor.go, `New` and the rate-limiter goroutine)

For the wall-clock bound, the rate-limiter loop is viewed with time: the
ticker created by `time.NewTicker(p.rateLimitTick)` fires its `m`-th tick at
time `m * D` nanoseconds after `Process` starts (where `D` is the computed
interval); its channel holds at most one pending tick, so every received
tick is a distinct real tick, received in firing order, and each loop
iteration forwards its job only at or after the time of the tick it
received. -/

/-- `Admits D m times`: the times (in ns) at which the limiter loop admits
the remaining jobs into the worker pool, given that the last consumed tick
was the `m`-th.  Each admission consumes a fresh, strictly later tick `k`
(fired at `k * D`) and happens no earlier than that tick. -/
inductive Admits (D : ℚ) : Nat → List ℚ → Prop where
  | nil (m : Nat) : Admits D m []
  | cons {m k : Nat} {t : ℚ} {rest : List ℚ} :
      m < k → (k : ℚ) * D ≤ t → Admits D k rest → Admits D m (t :: rest)

/-! ## Concrete instances used by the claim witnesses -/

/-- A sample job. -/
def job1 : Job := { url := "https://example.com/a", project := "", version := "" }

/-- A one-job input list. -/
def jobs1 : List Job := [job1]

/-- The result produced for `job1` by a failing fetch in the sample run. -/
def resFail1 : Result :=
  { job := job1, article := none, analysis := none,
    error := some (.fetchFailed "boom") }

/-- Intermediate states of a complete sample run of `Process` on `jobs1`
with one worker and no cancellation. -/
def st1 : PState :=
  { cancelled := false, sendQueue := [], senderDone := false, jobChan := [job1],
    jobChanClosed := false, limiter := .running, rateQ := [], rateClosed := false,
    workers := [.idle], results := [], admitted := [] }

/-- After the sender closes `jobChan`. -/
def st2 : PState :=
  { st1 with senderDone := true, jobChanClosed := true }

/-- After the limiter pulls `job1`. -/
def st3 : PState :=
  { st2 with jobChan := [], limiter := .waiting job1 }

/-- After a tick is received. -/
def st4 : PState :=
  { st3 with limiter := .sending job1 }

/-- After the limiter forwards `job1`. -/
def st5 : PState :=
  { st4 with limiter := .running, rateQ := [job1], admitted := [job1] }

/-- After the limiter exits and closes `rateLimitedJobs`. -/
def st6 : PState :=
  { st5 with limiter := .done, rateClosed := true }

/-- After the worker pulls `job1`. -/
def st7 : PState :=
  { st6 with rateQ := [], workers := [.pulled job1] }

/-- After the worker's cancellation check passes. -/
def st8 : PState :=
  { st7 with workers := [.processing job1] }

/-- After the worker emits the result of a failing fetch. -/
def st9 : PState :=
  { st8 with workers := [.idle], results := [resFail1] }

/-- The terminal state of the sample run. -/
def stFinal : PState :=
  { st9 with workers := [.done] }

/-- A state with the signal cancelled and one worker holding `job1`. -/
def csS : PState :=
  { cancelled := true, sendQueue := [], senderDone := true, jobChan := [],
    jobChanClosed := true, limiter := .done, rateQ := [], rateClosed := true,
    workers := [.pulled job1], results := [], admitted := [job1] }

/-- The state after that worker's cancellation check fires. -/
def csT : PState :=
  { csS with workers := [.done], results := [cancelResult job1] }

/-- A processor whose fetch always fails. -/
def pFetchFail : Processor :=
  New (fun _ => .error "boom") (fun _ _ => .error "never") ["go"] 1 1

/-- A sample article. -/
def article1 : Article :=
  { url := "https://example.com/a", title := "T", content := "body", excerpt := "b" }

/-- A processor whose fetch succeeds and whose analysis always fails. -/
def pAnalyzeFail : Processor :=
  New (fun _ => .ok article1) (fun _ _ => .error "bad json") ["go"] 1 1

/-- A decoder that returns score 150 (the spec's clamping scenario). -/
def unmarshal150 : String → Option AnalysisResult :=
  fun _ => some { score := 150, summary := ["point"], category := "cat" }

/-- A configuration that is valid except for a negative rate. -/
def cfgBadRate : Config :=
  { llmProvider := "ollama", apiKey := "", configModel := "llama3",
    interests := ["go"], threshold := 70,
    ollamaURL := "http://localhost:11434", maxWorkers := 5, rateLimit := -1 }

/-- The analysis result produced from `unmarshal150` (score clamped). -/
def r150 : AnalysisResult := { score := 100, summary := ["point"], category := "cat" }

/-- The clamping performed by `parseAnalysisResult` (lines 87–92 of
openai.go): scores below 0 become 0, scores above 100 become 100. -/
def clampScore (x : Int) : Int :=
  if x < 0 then 0 else if x > 100 then 100 else x

/-! # Theorems -/

/-! ## Per-job execution: C2 and C3 -/

/-- **C2.** For every job whose fetch stage fails, the produced `Result` has
no `Article`, no `AnalysisResult`, and an error wrapping the underlying
cause tagged "fetch failed"; moreover the result does not depend on the
analyze collaborator at all (the analyze stage is never invoked). -/
theorem fetch_failure_shape (p : Processor) (job : Job) (e : String)
    (h : p.fetchF job.url = .error e) :
    p.processJob job =
      { job := job, article := none, analysis := none,
        error := some (.fetchFailed e) } ∧
    ∀ g, Processor.processJob { p with analyzeF := g } job = p.processJob job := by
  constructor
  · simp [Processor.processJob, processJobO, h]
  · intro g
    simp [Processor.processJob, processJobO, h]

/-- Witness for C2: a processor whose fetch fails with "boom". -/
theorem fetch_failure_shape_witness :
    pFetchFail.processJob job1 =
      { job := job1, article := none, analysis := none,
        error := some (.fetchFailed "boom") } :=
  (fetch_failure_shape pFetchFail job1 "boom" rfl).1

/-- **C3.** For every job whose fetch succeeds and whose analyze stage
fails, the produced `Result` carries the fetched `Article`, has no
`AnalysisResult`, and has an error wrapping the underlying cause tagged
"analysis failed". -/
theorem analysis_failure_shape (p : Processor) (job : Job) (a : Article) (e : String)
    (hf : p.fetchF job.url = .ok a)
    (ha : p.analyzeF a.content p.interests = .error e) :
    p.processJob job =
      { job := job, article := some a, analysis := none,
        error := some (.analysisFailed e) } := by
  simp [Processor.processJob, processJobO, hf, ha]

/-- Witness for C3: a processor that fetches `article1` and fails analysis. -/
theorem analysis_failure_shape_witness :
    pAnalyzeFail.processJob job1 =
      { job := job1, article := some article1, analysis := none,
        error := some (.analysisFailed "bad json") } :=
  analysis_failure_shape pAnalyzeFail job1 article1 "bad json" rfl rfl

/-! ## Score clamping: C4 -/

/-- **C4.** For every backend response that decodes as JSON, the `Score`
field of any returned `AnalysisResult` lies in `[0, 100]`, and it equals the
decoded score clamped to that range (so a backend score of 150 yields 100). -/
theorem score_clamped (u : String → Option AnalysisResult) (content : String)
    (r : AnalysisResult) (h : parseAnalysisResult u content = .ok r) :
    (0 ≤ r.score ∧ r.score ≤ 100) ∧
    ∀ r0, u (cleanLLMContent content) = some r0 →
      r.score = clampScore r0.score := by
  cases hu : u (cleanLLMContent content) with
  | none =>
    rw [parseAnalysisResult, hu] at h
    exact absurd h (by simp)
  | some r0 =>
    rw [parseAnalysisResult, hu] at h
    dsimp only at h
    refine ⟨?_, ?_⟩
    · split_ifs at h <;>
        first
          | exact Except.noConfusion h
          | (obtain rfl := Except.ok.inj h
             try dsimp only at *
             omega)
    · intro r0' hr0'
      obtain rfl := Option.some.inj hr0'
      split_ifs at h <;>
        first
          | exact Except.noConfusion h
          | (obtain rfl := Except.ok.inj h
             try dsimp only at *
             unfold clampScore
             split_ifs <;> omega)

/-- Witness for C4: a decoded score of 150 is clamped to 100. -/
theorem score_clamped_witness :
    (0 ≤ r150.score ∧ r150.score ≤ 100) ∧
    ∀ r0, unmarshal150 (cleanLLMContent "\x7b\x7d") = some r0 →
      r150.score = clampScore r0.score :=
  score_clamped unmarshal150 "\x7b\x7d" r150 (by rfl)

/-! ## Construction-time rate validation: C5 -/

/-- **C5 counterexample.** A configuration with rate `-1 ≤ 0` is *not*
rejected: `Config.Validate` succeeds, silently replacing the rate with the
default `10`. -/
theorem rate_not_rejected :
    cfgBadRate.rateLimit ≤ 0 ∧
    Config.validate cfgBadRate = .ok { cfgBadRate with rateLimit := 10 } := by
  exact ⟨by norm_num [cfgBadRate], rfl⟩

/-- **C5 (amended).** A rate ≤ 0 is not a construction-time error:
`Config.Validate` behaves exactly as it would with the default rate `10`
(so construction succeeds or fails independently of the rate), and whenever
it succeeds on such a configuration the returned rate is the default `10`.
(`processor.New` itself has no error path at all: see `New`.) -/
theorem rate_defaulted (c : Config) (h : c.rateLimit ≤ 0) :
    Config.validate c = Config.validate { c with rateLimit := 10 } ∧
    ∀ c', Config.validate c = .ok c' → c'.rateLimit = 10 := by
  constructor
  · simp only [Config.validate]
    split_ifs <;> simp_all
  · intro c' hc'
    simp only [Config.validate] at hc'
    split_ifs at hc' <;> simp_all <;> (subst hc'; rfl)

/-- Witness for the amended C5, at the concrete configuration `cfgBadRate`. -/
theorem rate_defaulted_witness :
    Config.validate cfgBadRate = Config.validate { cfgBadRate with rateLimit := 10 } :=
  (rate_defaulted cfgBadRate (by norm_num [cfgBadRate])).1

/-! ## Empty input and nil callback: C8 and C10 -/

/-- **C8.** For the empty job list, `Process` returns the empty result
sequence and the progress callback is never invoked, whatever the callback
argument is. -/
theorem empty_jobs_output (hasCallback : Bool) (emitted : List Result) :
    processOutput [] hasCallback emitted = { results := [], progressCalls := [] } :=
  rfl

/-- The collector returns the emitted results unchanged, whatever the
callback. -/
theorem collectLoop_results (hc : Bool) (total completed : Nat)
    (emitted : List Result) :
    (collectLoop hc total completed emitted).results = emitted := by
  induction emitted generalizing completed with
  | nil => rfl
  | cons r rest ih => simp [collectLoop, ih]

/-- With a nil callback the collector records no progress invocation. -/
theorem collectLoop_no_callback (total completed : Nat) (emitted : List Result) :
    (collectLoop false total completed emitted).progressCalls = [] := by
  induction emitted generalizing completed with
  | nil => rfl
  | cons r rest ih => simp [collectLoop, ih]

/-- **C10.** Calling `Process` with a nil progress callback is safe: the
returned result sequence is the same as with a callback, and no progress
invocation happens. -/
theorem nil_callback_safe (jobs : List Job) (emitted : List Result) :
    (processOutput jobs false emitted).results =
      (processOutput jobs true emitted).results ∧
    (processOutput jobs false emitted).progressCalls = [] := by
  unfold processOutput
  split
  · exact ⟨rfl, rfl⟩
  · exact ⟨(collectLoop_results false jobs.length 0 emitted).trans
      (collectLoop_results true jobs.length 0 emitted).symm,
      collectLoop_no_callback jobs.length 0 emitted⟩

/-! ## Pipeline invariants: toolbox -/

/-- Cancellation is irreversible. -/
theorem cancelled_mono {n : Nat} {s t : PState} (hst : Step n s t)
    (hc : s.cancelled = true) : t.cancelled = true := by
  cases hst <;> simpa using hc

@[simp]
theorem workersJobs_nil : workersJobs [] = [] := rfl

@[simp]
theorem workersJobs_cons (w : WorkerState) (ws : List WorkerState) :
    workersJobs (w :: ws) = workerJob w ++ workersJobs ws := rfl

@[simp]
theorem workersJobs_append (a b : List WorkerState) :
    workersJobs (a ++ b) = workersJobs a ++ workersJobs b := by
  induction a with
  | nil => rfl
  | cons w ws ih => simp [ih]

@[simp]
theorem processJobO_job (f : Except String Article)
    (a : Article → Except String AnalysisResult) (j : Job) :
    (processJobO f a j).job = j := by
  unfold processJobO
  cases f with
  | error e => rfl
  | ok art => cases h2 : a art <;> simp [h2]

theorem workersJobs_replicate_idle (n : Nat) :
    workersJobs (List.replicate n WorkerState.idle) = [] := by
  induction n with
  | zero => rfl
  | succ k ih => simp [List.replicate, ih, workerJob]

theorem workersJobs_of_allDone {ws : List WorkerState}
    (h : ∀ w ∈ ws, w = WorkerState.done) : workersJobs ws = [] := by
  induction ws with
  | nil => rfl
  | cons w ws ih =>
    have hw := h w (by simp)
    simp [hw, workerJob, ih fun x hx => h x (by simp [hx])]

theorem self_isPrefix_append {α : Type _} (a t : List α) : a <+: a ++ t := ⟨t, rfl⟩

theorem isPrefix_append_left {α : Type _} (a : List α) {l₁ l₂ : List α}
    (h : l₁ <+: l₂) : a ++ l₁ <+: a ++ l₂ := by
  obtain ⟨tl, rfl⟩ := h
  exact ⟨tl, by simp⟩

theorem rateClosed_false_of_limiter {s : PState}
    (h : s.rateClosed = true ↔ s.limiter = LimiterState.done)
    (hne : ¬ s.limiter = LimiterState.done) : s.rateClosed = false := by
  cases hb : s.rateClosed
  · rfl
  · exact absurd (h.mp hb) hne

theorem get?_append_ne {α : Type _} :
    ∀ (p : List α) (x : α) (q : List α) (y : α) (i : Nat), i ≠ p.length →
      (p ++ x :: q).get? i = (p ++ y :: q).get? i
  | [], x, q, y, 0, hi => absurd rfl hi
  | [], x, q, y, i + 1, _ => rfl
  | a :: p, x, q, y, 0, _ => rfl
  | a :: p, x, q, y, i + 1, hi =>
    get?_append_ne p x q y i (by simpa using hi)

theorem get?_append_self {α : Type _} :
    ∀ (p : List α) (x : α) (q : List α),
      (p ++ x :: q).get? p.length = some x
  | [], x, q => rfl
  | a :: p, x, q => get?_append_self p x q

/-- The invariant holds in the initial state. -/
theorem inv_init (jobs : List Job) (n : Nat) : Inv jobs n (initState jobs n) := by
  refine ⟨⟨by simp [initState], by simp [initState], by simp [initState], ?_⟩, ?_⟩
  · simp [initState, pending, limiterJobs]
  · intro _
    refine ⟨?_, ?_, ?_, ?_, ?_⟩
    · simp [jobsMultiset, initState, limiterJobs, workersJobs_replicate_idle]
    · intro h; simp [initState] at h
    · intro h; simp [initState] at h
    · rintro ⟨w, hw, rfl⟩
      simp only [initState] at hw
      exact absurd (List.eq_of_mem_replicate hw) (by simp)
    · simp [initState, pending, limiterJobs]

/-- The invariant is preserved by every step. -/
theorem inv_step {jobs : List Job} {n : Nat} {s t : PState}
    (hst : Step n s t) (hI : Inv jobs n s) : Inv jobs n t := by
  obtain ⟨⟨rateC, sendC, wlen, adm⟩, hnc⟩ := hI
  cases hst with
  | cancel hc =>
    refine ⟨⟨rateC, sendC, wlen, adm⟩, ?_⟩
    intro hcf; simp at hcf
  | senderSend j rest hd hq =>
    refine ⟨⟨rateC, sendC, wlen, ?_⟩, ?_⟩
    · by_cases hl : s.limiter = LimiterState.done
      · simpa [pending, hl] using adm
      · simpa [pending, hl, hd, hq, List.append_assoc] using adm
    · intro hcf
      obtain ⟨perm, limDone, sendDoneQ, wDone, admEq⟩ := hnc hcf
      have hld : ¬ s.limiter = LimiterState.done := by
        intro hcontra
        obtain ⟨hcl, _⟩ := limDone hcontra
        exact absurd hcl (by rw [← sendC]; simp [hd])
      refine ⟨?_, ?_, ?_, ?_, ?_⟩
      · refine Eq.trans ?_ perm
        simp only [jobsMultiset, hq, limiterJobs, workersJobs_append,
          workersJobs_cons, workersJobs_nil, List.map_append, List.map_cons,
          List.map_nil, ← Multiset.coe_add, ← Multiset.cons_coe,
          ← Multiset.singleton_add, Multiset.coe_nil, add_zero, zero_add]
        abel
      · intro hld2
        exact absurd hld2 hld
      · intro hcl
        exact absurd hcl (by rw [← sendC]; simp [hd])
      · intro hx; exact wDone hx
      · simpa [pending, hld, hd, hq, List.append_assoc] using admEq
  | senderFinish hd hq =>
    refine ⟨⟨rateC, rfl, wlen, ?_⟩, ?_⟩
    · by_cases hl : s.limiter = LimiterState.done
      · simpa [pending, hl] using adm
      · simpa [pending, hl, hd, hq] using adm
    · intro hcf
      obtain ⟨perm, limDone, sendDoneQ, wDone, admEq⟩ := hnc hcf
      refine ⟨perm, ?_, ?_, ?_, ?_⟩
      · intro hld
        obtain ⟨_, hjc⟩ := limDone hld
        exact ⟨rfl, hjc⟩
      · intro _; exact hq
      · intro hx; exact wDone hx
      · by_cases hl : s.limiter = LimiterState.done
        · simpa [pending, hl] using admEq
        · simpa [pending, hl, hd, hq] using admEq
  | senderAbort hd hne hc =>
    refine ⟨⟨rateC, rfl, wlen, ?_⟩, ?_⟩
    · by_cases hl : s.limiter = LimiterState.done
      · simpa [pending, hl] using adm
      · have adm' := adm
        simp only [pending, hl, hd] at adm' ⊢
        simp only [if_false, Bool.false_eq_true, if_true, List.append_nil] at adm' ⊢
        refine List.IsPrefix.trans ?_ adm'
        exact isPrefix_append_left _ (self_isPrefix_append _ _)
    · intro hcf; simp [hc] at hcf
  | limiterPull j rest hl hjc =>
    have hrcf := rateClosed_false_of_limiter rateC (by simp [hl])
    refine ⟨⟨by simp [hrcf], sendC, wlen, ?_⟩, ?_⟩
    · simpa [pending, hl, hjc, limiterJobs, List.append_assoc] using adm
    · intro hcf
      obtain ⟨perm, limDone, sendDoneQ, wDone, admEq⟩ := hnc hcf
      refine ⟨?_, ?_, ?_, ?_, ?_⟩
      · refine Eq.trans ?_ perm
        simp only [jobsMultiset, hl, hjc, limiterJobs, workersJobs_append,
          workersJobs_cons, workersJobs_nil, List.map_append, List.map_cons,
          List.map_nil, ← Multiset.coe_add, ← Multiset.cons_coe,
          ← Multiset.singleton_add, Multiset.coe_nil, add_zero, zero_add]
        abel
      · intro hld; simp at hld
      · intro hcl; exact sendDoneQ hcl
      · intro hx; exact wDone hx
      · simpa [pending, hl, hjc, limiterJobs, List.append_assoc] using admEq
  | limiterExit hl hclosed hjc =>
    refine ⟨⟨by simp, sendC, wlen, ?_⟩, ?_⟩
    · simpa [pending] using
        ((self_isPrefix_append s.admitted (pending s)).trans adm)
    · intro hcf
      obtain ⟨perm, limDone, sendDoneQ, wDone, admEq⟩ := hnc hcf
      have hsd : s.senderDone = true := by rw [sendC]; exact hclosed
      refine ⟨?_, ?_, ?_, ?_, ?_⟩
      · refine Eq.trans ?_ perm
        simp only [jobsMultiset, hl, limiterJobs, ← Multiset.coe_add,
          Multiset.coe_nil, add_zero, zero_add]
      · intro _; exact ⟨hclosed, hjc⟩
      · intro hcl; exact sendDoneQ hcl
      · intro hx
        obtain ⟨_, hrq⟩ := wDone hx
        exact ⟨rfl, hrq⟩
      · simpa [pending, hl, hjc, hsd, limiterJobs] using admEq
  | limiterCancel j hl hc =>
    refine ⟨⟨by simp, sendC, wlen, ?_⟩, ?_⟩
    · simpa [pending] using
        ((self_isPrefix_append s.admitted (pending s)).trans adm)
    · intro hcf; simp [hc] at hcf
  | limiterTick j hl =>
    have hrcf := rateClosed_false_of_limiter rateC (by simp [hl])
    refine ⟨⟨by simp [hrcf], sendC, wlen, ?_⟩, ?_⟩
    · simpa [pending, hl, limiterJobs] using adm
    · intro hcf
      obtain ⟨perm, limDone, sendDoneQ, wDone, admEq⟩ := hnc hcf
      refine ⟨?_, ?_, ?_, ?_, ?_⟩
      · refine Eq.trans ?_ perm
        simp only [jobsMultiset, hl, limiterJobs]
      · intro hld; simp at hld
      · intro hcl; exact sendDoneQ hcl
      · intro hx; exact wDone hx
      · simpa [pending, hl, limiterJobs] using admEq
  | limiterPush j hl hlen =>
    have hrcf := rateClosed_false_of_limiter rateC (by simp [hl])
    refine ⟨⟨by simp [hrcf], sendC, wlen, ?_⟩, ?_⟩
    · simpa [pending, hl, limiterJobs, List.append_assoc] using adm
    · intro hcf
      obtain ⟨perm, limDone, sendDoneQ, wDone, admEq⟩ := hnc hcf
      refine ⟨?_, ?_, ?_, ?_, ?_⟩
      · refine Eq.trans ?_ perm
        simp only [jobsMultiset, hl, limiterJobs, ← Multiset.coe_add,
          ← Multiset.cons_coe, ← Multiset.singleton_add, Multiset.coe_nil,
          add_zero, zero_add]
        abel
      · intro hld; simp at hld
      · intro hcl; exact sendDoneQ hcl
      · intro hx
        obtain ⟨hrc2, _⟩ := wDone hx
        exact absurd (rateC.mp hrc2) (by simp [hl])
      · simpa [pending, hl, limiterJobs, List.append_assoc] using admEq
  | workerPull p q j rest hw hq =>
    refine ⟨⟨rateC, sendC, ?_, adm⟩, ?_⟩
    · rw [hw] at wlen; simpa using wlen
    · intro hcf
      obtain ⟨perm, limDone, sendDoneQ, wDone, admEq⟩ := hnc hcf
      refine ⟨?_, ?_, ?_, ?_, ?_⟩
      · refine Eq.trans ?_ perm
        simp only [jobsMultiset, hw, hq, workersJobs_append, workersJobs_cons,
          workersJobs_nil, workerJob, ← Multiset.coe_add, ← Multiset.cons_coe,
          ← Multiset.singleton_add, Multiset.coe_nil, add_zero, zero_add]
        abel
      · intro hld; exact limDone hld
      · intro hcl; exact sendDoneQ hcl
      · rintro ⟨w, hwmem, rfl⟩
        have hxs : ∃ w ∈ s.workers, w = WorkerState.done := by
          rw [hw]
          rcases List.mem_append.mp hwmem with hp | hcons
          · exact ⟨_, List.mem_append_left _ hp, rfl⟩
          · rcases List.mem_cons.mp hcons with he | hq2
            · exact absurd he (by simp)
            · exact ⟨_, List.mem_append_right _ (List.mem_cons_of_mem _ hq2), rfl⟩
        obtain ⟨_, hrq2⟩ := wDone hxs
        rw [hq] at hrq2
        simp at hrq2
      · exact admEq
  | workerExit p q hw hrc hrq =>
    refine ⟨⟨rateC, sendC, ?_, adm⟩, ?_⟩
    · rw [hw] at wlen; simpa using wlen
    · intro hcf
      obtain ⟨perm, limDone, sendDoneQ, wDone, admEq⟩ := hnc hcf
      refine ⟨?_, ?_, ?_, ?_, ?_⟩
      · refine Eq.trans ?_ perm
        simp only [jobsMultiset, hw, workersJobs_append, workersJobs_cons,
          workersJobs_nil, workerJob]
      · intro hld; exact limDone hld
      · intro hcl; exact sendDoneQ hcl
      · intro _; exact ⟨hrc, hrq⟩
      · exact admEq
  | workerCancel p q j hw hc =>
    refine ⟨⟨rateC, sendC, ?_, adm⟩, ?_⟩
    · rw [hw] at wlen; simpa using wlen
    · intro hcf; simp [hc] at hcf
  | workerCheck p q j hw hcfalse =>
    refine ⟨⟨rateC, sendC, ?_, adm⟩, ?_⟩
    · rw [hw] at wlen; simpa using wlen
    · intro hcf
      obtain ⟨perm, limDone, sendDoneQ, wDone, admEq⟩ := hnc hcf
      refine ⟨?_, ?_, ?_, ?_, ?_⟩
      · refine Eq.trans ?_ perm
        simp only [jobsMultiset, hw, workersJobs_append, workersJobs_cons,
          workersJobs_nil, workerJob]
      · intro hld; exact limDone hld
      · intro hcl; exact sendDoneQ hcl
      · rintro ⟨w, hwmem, rfl⟩
        refine wDone ?_
        rw [hw]
        rcases List.mem_append.mp hwmem with hp | hcons
        · exact ⟨_, List.mem_append_left _ hp, rfl⟩
        · rcases List.mem_cons.mp hcons with he | hq2
          · exact absurd he (by simp)
          · exact ⟨_, List.mem_append_right _ (List.mem_cons_of_mem _ hq2), rfl⟩
      · exact admEq
  | workerEmit p q j fetchRes analyzeRes hw =>
    refine ⟨⟨rateC, sendC, ?_, adm⟩, ?_⟩
    · rw [hw] at wlen; simpa using wlen
    · intro hcf
      obtain ⟨perm, limDone, sendDoneQ, wDone, admEq⟩ := hnc hcf
      refine ⟨?_, ?_, ?_, ?_, ?_⟩
      · refine Eq.trans ?_ perm
        simp only [jobsMultiset, hw, workersJobs_append, workersJobs_cons,
          workersJobs_nil, workerJob, List.map_append, List.map_cons,
          List.map_nil, processJobO_job, ← Multiset.coe_add,
          ← Multiset.cons_coe, ← Multiset.singleton_add, Multiset.coe_nil,
          add_zero, zero_add]
        abel
      · intro hld; exact limDone hld
      · intro hcl; exact sendDoneQ hcl
      · rintro ⟨w, hwmem, rfl⟩
        refine wDone ?_
        rw [hw]
        rcases List.mem_append.mp hwmem with hp | hcons
        · exact ⟨_, List.mem_append_left _ hp, rfl⟩
        · rcases List.mem_cons.mp hcons with he | hq2
          · exact absurd he (by simp)
          · exact ⟨_, List.mem_append_right _ (List.mem_cons_of_mem _ hq2), rfl⟩
      · exact admEq

/-- Every reachable state satisfies the invariant. -/
theorem reach_inv {jobs : List Job} {n : Nat} {s : PState}
    (h : Reach jobs n s) : Inv jobs n s := by
  induction h with
  | refl => exact inv_init jobs n
  | tail _ hstep ih => exact inv_step hstep ih

/-- In a reachable state of a cancellation-free run in which all workers
have returned (i.e. where `Process` returns), the emitted results answer
exactly the input jobs, and the admitted sequence is exactly the input. -/
theorem terminal_facts {jobs : List Job} {n : Nat} {s : PState} (hn : 1 ≤ n)
    (hre : Reach jobs n s) (hc : s.cancelled = false) (hd : AllDone s) :
    (s.results.map Result.job : Multiset Job) = (jobs : Multiset Job) ∧
      s.admitted = jobs := by
  obtain ⟨⟨rateC, sendC, wlen, adm⟩, hnc⟩ := reach_inv hre
  obtain ⟨perm, limDone, sendDoneQ, wDone, admEq⟩ := hnc hc
  have hw0 : ∃ w ∈ s.workers, w = WorkerState.done := by
    cases hwk : s.workers with
    | nil => rw [hwk] at wlen; simp at wlen; omega
    | cons w ws => exact ⟨w, by simp [hwk], hd w (by simp [hwk])⟩
  obtain ⟨hrc, hrq⟩ := wDone hw0
  have hlim : s.limiter = LimiterState.done := rateC.mp hrc
  obtain ⟨hclosed, hjc⟩ := limDone hlim
  have hsq : s.sendQueue = [] := sendDoneQ hclosed
  have hwj : workersJobs s.workers = [] := workersJobs_of_allDone hd
  constructor
  · have hperm := perm
    rw [jobsMultiset, hsq, hjc, hrq, hwj, hlim] at hperm
    simpa [limiterJobs] using hperm
  · have hadm := admEq
    rw [pending, if_pos hlim] at hadm
    simpa using hadm

/-! ## Pipeline completeness: C1 -/

/-- **C1.** For every job list and every worker count `n ≥ 1`: in any run of
`Process` in which the cancellation signal never fires, once all workers
have returned (the point at which `Process` returns its collected results),
the emitted results are in 1:1 correspondence with the input jobs — as a
multiset, the results' jobs are exactly the input jobs, so for a list of
size K exactly K results are returned, no job yielding zero or several
results. -/
theorem process_completeness (jobs : List Job) (n : Nat) (hn : 1 ≤ n)
    (s : PState) (hre : Reach jobs n s) (hc : s.cancelled = false)
    (hd : AllDone s) :
    (s.results.map Result.job).Perm jobs ∧ s.results.length = jobs.length := by
  have hm := (terminal_facts hn hre hc hd).1
  have hperm : (s.results.map Result.job).Perm jobs := Multiset.coe_eq_coe.mp hm
  refine ⟨hperm, ?_⟩
  have := hperm.length_eq
  simpa using this

/-- The sample run: `Process` on `jobs1` with one worker reaches `stFinal`
without cancellation. -/
theorem reach_stFinal : Reach jobs1 1 stFinal := by
  have h1 : Step 1 (initState jobs1 1) st1 :=
    Step.senderSend (initState jobs1 1) job1 [] rfl rfl
  have h2 : Step 1 st1 st2 := Step.senderFinish st1 rfl rfl
  have h3 : Step 1 st2 st3 := Step.limiterPull st2 job1 [] rfl rfl
  have h4 : Step 1 st3 st4 := Step.limiterTick st3 job1 rfl
  have h5 : Step 1 st4 st5 := Step.limiterPush st4 job1 rfl (by simp [st4, st3, st2, st1])
  have h6 : Step 1 st5 st6 := Step.limiterExit st5 rfl rfl rfl
  have h7 : Step 1 st6 st7 := Step.workerPull st6 [] [] job1 [] rfl rfl
  have h8 : Step 1 st7 st8 := Step.workerCheck st7 [] [] job1 rfl rfl
  have h9 : Step 1 st8 st9 :=
    Step.workerEmit st8 [] [] job1 (Except.error "boom")
      (fun _ => Except.error "never") rfl
  have h10 : Step 1 st9 stFinal := Step.workerExit st9 [] [] rfl rfl rfl
  exact .head h1 (.head h2 (.head h3 (.head h4 (.head h5 (.head h6
    (.head h7 (.head h8 (.head h9 (.single h10)))))))))

/-- Witness for C1: the sample run ends with exactly one result, answering
`job1`. -/
theorem process_completeness_witness :
    (stFinal.results.map Result.job).Perm jobs1 ∧
      stFinal.results.length = jobs1.length :=
  process_completeness jobs1 1 (by norm_num) stFinal reach_stFinal rfl
    (by intro w hw; simpa [stFinal] using hw)

/-! ## Admission order: C7 -/

/-- **C7.** In every reachable state of every run, the sequence of jobs
admitted into the worker pool is a prefix of the input sequence; and in a
cancellation-free run, once all workers have returned the admitted sequence
is the whole input (so a proper prefix can remain only when cancellation
fires mid-intake). -/
theorem admission_order (jobs : List Job) (n : Nat) (s : PState)
    (hre : Reach jobs n s) :
    s.admitted <+: jobs ∧
    (s.cancelled = false → 1 ≤ n → AllDone s → s.admitted = jobs) := by
  obtain ⟨⟨rateC, sendC, wlen, adm⟩, hnc⟩ := reach_inv hre
  constructor
  · exact (self_isPrefix_append s.admitted (pending s)).trans adm
  · intro hc hn hd
    exact (terminal_facts hn hre hc hd).2

/-- Witness for C7: in the sample run the admitted sequence is exactly the
input. -/
theorem admission_order_witness :
    stFinal.admitted <+: jobs1 ∧ stFinal.admitted = jobs1 := by
  have h := admission_order jobs1 1 stFinal reach_stFinal
  exact ⟨h.1, h.2 rfl (by norm_num) (by intro w hw; simpa [stFinal] using hw)⟩

/-! ## Worker cancellation behaviour: C6 -/

/-- **C6.** For every step of the pipeline and every worker `i`: if the
cancellation signal has fired and worker `i` holds a pulled job `j`, then the
only transition that moves that worker emits exactly the cancellation result
for `j` (`cancelResult j`, which carries no `Article` and no
`AnalysisResult`) and retires the worker; and a retired worker never moves
again (it pulls no further jobs). -/
theorem worker_cancellation {n : Nat} (s t : PState) (i : Nat) (j : Job)
    (hst : Step n s t) :
    (s.cancelled = true → s.workers.get? i = some (.pulled j) →
      t.workers.get? i ≠ some (.pulled j) →
      t.workers.get? i = some WorkerState.done ∧
        t.results = s.results ++ [cancelResult j]) ∧
    (s.workers.get? i = some WorkerState.done →
      t.workers.get? i = some WorkerState.done) := by
  cases hst with
  | cancel hc => exact ⟨fun _ hgi hne => absurd hgi hne, fun h => h⟩
  | senderSend j0 rest hd hq => exact ⟨fun _ hgi hne => absurd hgi hne, fun h => h⟩
  | senderFinish hd hq => exact ⟨fun _ hgi hne => absurd hgi hne, fun h => h⟩
  | senderAbort hd hne hc => exact ⟨fun _ hgi hne => absurd hgi hne, fun h => h⟩
  | limiterPull j0 rest hl hjc => exact ⟨fun _ hgi hne => absurd hgi hne, fun h => h⟩
  | limiterExit hl hclosed hjc => exact ⟨fun _ hgi hne => absurd hgi hne, fun h => h⟩
  | limiterCancel j0 hl hc => exact ⟨fun _ hgi hne => absurd hgi hne, fun h => h⟩
  | limiterTick j0 hl => exact ⟨fun _ hgi hne => absurd hgi hne, fun h => h⟩
  | limiterPush j0 hl hlen => exact ⟨fun _ hgi hne => absurd hgi hne, fun h => h⟩
  | workerPull p q j0 rest hw hq =>
    constructor
    · intro hcanc hgi hne
      by_cases hip : i = p.length
      · subst hip
        rw [hw, get?_append_self] at hgi
        simp at hgi
      · rw [hw] at hgi
        exact absurd ((get?_append_ne p (.pulled j0) q .idle i hip).trans hgi) hne
    · intro hdone
      by_cases hip : i = p.length
      · subst hip
        rw [hw, get?_append_self] at hdone
        simp at hdone
      · rw [hw] at hdone
        exact (get?_append_ne p (.pulled j0) q .idle i hip).trans hdone
  | workerExit p q hw hrc hrq =>
    constructor
    · intro hcanc hgi hne
      by_cases hip : i = p.length
      · subst hip
        rw [hw, get?_append_self] at hgi
        simp at hgi
      · rw [hw] at hgi
        exact absurd ((get?_append_ne p .done q .idle i hip).trans hgi) hne
    · intro hdone
      by_cases hip : i = p.length
      · subst hip
        rw [hw, get?_append_self] at hdone
        simp at hdone
      · rw [hw] at hdone
        exact (get?_append_ne p .done q .idle i hip).trans hdone
  | workerCancel p q j0 hw hc =>
    constructor
    · intro hcanc hgi hne
      by_cases hip : i = p.length
      · subst hip
        rw [hw, get?_append_self] at hgi
        have hj : j0 = j := by
          have := Option.some.inj hgi
          exact WorkerState.pulled.inj this
        subst hj
        exact ⟨get?_append_self p _ q, rfl⟩
      · rw [hw] at hgi
        exact absurd ((get?_append_ne p .done q (.pulled j0) i hip).trans hgi) hne
    · intro hdone
      by_cases hip : i = p.length
      · subst hip
        rw [hw, get?_append_self] at hdone
        simp at hdone
      · rw [hw] at hdone
        exact (get?_append_ne p .done q (.pulled j0) i hip).trans hdone
  | workerCheck p q j0 hw hcfalse =>
    constructor
    · intro hcanc hgi hne
      rw [hcanc] at hcfalse
      simp at hcfalse
    · intro hdone
      by_cases hip : i = p.length
      · subst hip
        rw [hw, get?_append_self] at hdone
        simp at hdone
      · rw [hw] at hdone
        exact (get?_append_ne p (.processing j0) q (.pulled j0) i hip).trans hdone
  | workerEmit p q j0 fetchRes analyzeRes hw =>
    constructor
    · intro hcanc hgi hne
      by_cases hip : i = p.length
      · subst hip
        rw [hw, get?_append_self] at hgi
        simp at hgi
      · rw [hw] at hgi
        exact absurd ((get?_append_ne p .idle q (.processing j0) i hip).trans hgi) hne
    · intro hdone
      by_cases hip : i = p.length
      · subst hip
        rw [hw, get?_append_self] at hdone
        simp at hdone
      · rw [hw] at hdone
        exact (get?_append_ne p .idle q (.processing j0) i hip).trans hdone

/-- Witness for C6: a cancelled worker holding `job1` emits exactly the
cancellation result for it and retires. -/
theorem worker_cancellation_witness :
    csT.workers.get? 0 = some WorkerState.done ∧
      csT.results = csS.results ++ [cancelResult job1] := by
  have hstep : Step 1 csS csT := Step.workerCancel csS [] [] job1 rfl rfl
  exact (worker_cancellation csS csT 0 job1 hstep).1 rfl rfl (by simp [csT, csS])

/-! ## The admission-rate bound: C9 -/

/-- The computed tick interval is nonnegative for every positive rate. -/
theorem tickDurationNs_nonneg (R : ℚ) (hR : 0 < R) : 0 ≤ tickDurationNs R := by
  unfold tickDurationNs
  split_ifs with h1
  · refine Int.le_floor.mpr ?_
    push_cast
    apply div_nonneg (by norm_num)
    exact_mod_cast Int.le_floor.mpr (by exact_mod_cast hR.le)
  · refine Int.le_floor.mpr ?_
    push_cast
    positivity

/-- The computed tick interval undershoots the ideal interval `10⁹/R` ns by
less than one nanosecond (truncation of the rate and of the division). -/
theorem tickDurationNs_gt (R : ℚ) (hR : 0 < R) :
    (10 ^ 9 : ℚ) / R - 1 < ((tickDurationNs R : ℤ) : ℚ) := by
  unfold tickDurationNs
  split_ifs with h1
  · have hfl : (1 : ℤ) ≤ ⌊R⌋ := Int.le_floor.mpr (by exact_mod_cast h1)
    have hfl0 : (0 : ℚ) < (⌊R⌋ : ℚ) := by exact_mod_cast hfl
    have hle : (10 ^ 9 : ℚ) / R ≤ (10 ^ 9 : ℚ) / (⌊R⌋ : ℚ) := by
      gcongr
      exact Int.floor_le R
    calc (10 ^ 9 : ℚ) / R - 1 ≤ (10 ^ 9 : ℚ) / (⌊R⌋ : ℚ) - 1 := by linarith
      _ < ((⌊(10 ^ 9 : ℚ) / (⌊R⌋ : ℚ)⌋ : ℤ) : ℚ) := Int.sub_one_lt_floor _
  · exact Int.sub_one_lt_floor _

/-- Each admission comes no earlier than its (fresh) tick: if `m` ticks were
already consumed, the last of `times` admissions happens at or after
`(m + times.length) · D`. -/
theorem admits_last {D : ℚ} (hD : 0 ≤ D) {m : Nat} {times : List ℚ}
    (h : Admits D m times) :
    ∀ {tlast : ℚ}, times.getLast? = some tlast →
      (((m + times.length : Nat) : ℚ)) * D ≤ tlast := by
  induction h with
  | nil m => intro tlast hlast; simp at hlast
  | @cons m k t rest hmk hkt hrest ih =>
    intro tlast hlast
    cases hr : rest with
    | nil =>
      subst hr
      have ht : tlast = t := by simpa using hlast.symm
      subst ht
      have hm1 : ((m + 1 : Nat) : ℚ) ≤ (k : ℚ) := by exact_mod_cast hmk
      simpa using (mul_le_mul_of_nonneg_right hm1 hD).trans hkt
    | cons r rs =>
      subst hr
      have hlast' : (r :: rs).getLast? = some tlast := by
        simpa using hlast
      have hmono : (((m + (t :: r :: rs).length : Nat) : ℚ)) ≤
          (((k + (r :: rs).length : Nat) : ℚ)) := by
        simp only [List.length_cons]
        push_cast
        have : (m : ℚ) + 1 ≤ (k : ℚ) := by exact_mod_cast hmk
        linarith
      calc (((m + (t :: r :: rs).length : Nat) : ℚ)) * D
          ≤ (((k + (r :: rs).length : Nat) : ℚ)) * D :=
            mul_le_mul_of_nonneg_right hmono hD
        _ ≤ tlast := ih hlast'

/-- **C9 (amended).** For rate `R > 0` and any run of the limiter admitting
`K` jobs at times `times` (in ns): the last admission happens no earlier
than `K · D` where `D = tickDurationNs R` is the computed tick interval; and
whenever `K · R ≤ 10⁹` (i.e. unless the nanosecond truncation of the
interval accumulates over an astronomically long run) this implies the
spec's bound of `(K − 1) · (10⁹ / R)` ns, i.e. `(K-1)/R` seconds. -/
theorem admission_time_bound (R : ℚ) (hR : 0 < R) (times : List ℚ) (tlast : ℚ)
    (h : Admits ((tickDurationNs R : ℤ) : ℚ) 0 times)
    (hl : times.getLast? = some tlast) :
    (times.length : ℚ) * ((tickDurationNs R : ℤ) : ℚ) ≤ tlast ∧
    ((times.length : ℚ) * R ≤ 10 ^ 9 →
      ((times.length : ℚ) - 1) * ((10 ^ 9 : ℚ) / R) ≤ tlast) := by
  have hD0 : (0 : ℚ) ≤ ((tickDurationNs R : ℤ) : ℚ) := by
    exact_mod_cast tickDurationNs_nonneg R hR
  have h1 := admits_last hD0 h hl
  simp only [Nat.zero_add] at h1
  refine ⟨h1, ?_⟩
  intro hKR
  have hD := tickDurationNs_gt R hR
  have hK0 : (0 : ℚ) ≤ (times.length : ℚ) := by positivity
  have hKle : (times.length : ℚ) ≤ (10 ^ 9 : ℚ) / R := by
    rw [le_div_iff₀ hR]
    exact hKR
  nlinarith [mul_le_mul_of_nonneg_left hD.le hK0, h1]

/-- Witness for the amended C9: one job at rate 1/s is admitted no earlier
than the computed interval of one second. -/
theorem admission_time_bound_witness :
    (([((10 : ℚ) ^ 9)].length : ℚ) * ((tickDurationNs 1 : ℤ) : ℚ) ≤ 10 ^ 9) ∧
    (([((10 : ℚ) ^ 9)].length : ℚ) * 1 ≤ 10 ^ 9 →
      (([((10 : ℚ) ^ 9)].length : ℚ) - 1) * ((10 ^ 9 : ℚ) / 1) ≤ 10 ^ 9) := by
  refine admission_time_bound 1 (by norm_num) [(10 : ℚ) ^ 9] ((10 : ℚ) ^ 9) ?_ rfl
  have hD : ((tickDurationNs 1 : ℤ) : ℚ) = 10 ^ 9 := by
    norm_num [tickDurationNs]
  rw [hD]
  exact @Admits.cons ((10 : ℚ) ^ 9) 0 1 ((10 : ℚ) ^ 9) [] (by norm_num)
    (by norm_num) (Admits.nil 1)

/-- **C9 counterexample.** At rate `R = 6·10⁸` permits/second the computed
interval truncates to 1 ns, so three jobs can be admitted at times 1, 2 and
3 ns — a valid admission trace — while the claimed bound `(K−1)/R` seconds
is `10/3` ns: the claim's inequality fails. -/
theorem admission_time_counterexample :
    Admits ((tickDurationNs 600000000 : ℤ) : ℚ) 0 [1, 2, 3] ∧
      ([(1 : ℚ), 2, 3].getLast? = some 3) ∧
      ¬ ((((3 : ℕ) : ℚ) - 1) * ((10 ^ 9 : ℚ) / 600000000) ≤ 3) := by
  refine ⟨?_, rfl, by norm_num⟩
  have hD : ((tickDurationNs 600000000 : ℤ) : ℚ) = 1 := by
    norm_num [tickDurationNs]
  rw [hD]
  exact @Admits.cons 1 0 1 1 [2, 3] (by norm_num) (by norm_num)
    (@Admits.cons 1 1 2 2 [3] (by norm_num) (by norm_num)
      (@Admits.cons 1 2 3 3 [] (by norm_num) (by norm_num) (Admits.nil 3)))

end SmartDigest
